import Mathlib

/-!
Verification of the token-propagation resolution engine of
`arewedesigntokensyet` against its natural-language specification.

The JavaScript sources are shallowly embedded: CSS values and property
names are `List Char`, JS objects used as string-keyed maps are
association lists, fallible functions return `Except String _`, and the
`while` loop of `buildResolutionTrace` is realised with a fuel argument
large enough to never run out (a congruence lemma below shows the result
is independent of any sufficient fuel, i.e. the loop terminates).
-/

set_option autoImplicit false

namespace Awdty

/-- CSS values, property names and file paths are JS strings, modelled
as lists of characters. -/
abbrev Str := List Char

/-- Membership in the JS regular-expression class `\s` (ECMAScript
WhiteSpace plus LineTerminator), as used by `/var\(\s*(--[\w-]+)/g`. -/
def isJSWhitespace (c : Char) : Bool :=
  c.toNat = 9 ∨ c.toNat = 10 ∨ c.toNat = 11 ∨ c.toNat = 12 ∨ c.toNat = 13 ∨
  c.toNat = 32 ∨ c.toNat = 160 ∨ c.toNat = 0x1680 ∨
  (0x2000 ≤ c.toNat ∧ c.toNat ≤ 0x200a) ∨ c.toNat = 0x2028 ∨
  c.toNat = 0x2029 ∨ c.toNat = 0x202f ∨ c.toNat = 0x205f ∨
  c.toNat = 0x3000 ∨ c.toNat = 0xfeff

/-- Membership in the JS regular-expression class `\w` (`[A-Za-z0-9_]`). -/
def isJSWordChar (c : Char) : Bool :=
  (65 ≤ c.toNat ∧ c.toNat ≤ 90) ∨ (97 ≤ c.toNat ∧ c.toNat ≤ 122) ∨
  (48 ≤ c.toNat ∧ c.toNat ≤ 57) ∨ c.toNat = 95

/-- Membership in the class `[\w-]` used for custom-property names. -/
def isNameChar (c : Char) : Bool :=
  isJSWordChar c || c.toNat = 45

/-- `String.prototype.trim`: strip JS whitespace from both ends. -/
def trimJS (s : Str) : Str :=
  (((s.dropWhile isJSWhitespace).reverse).dropWhile isJSWhitespace).reverse

/-- `String.prototype.toLowerCase`, for the ASCII range exercised by
CSS property names and values. -/
def toLowerJS (s : Str) : Str :=
  s.map Char.toLower

/-- `String.prototype.includes sub`: substring containment (an empty
`sub` is contained in every string, as in JS). -/
def containsSub (s sub : Str) : Bool :=
  match s with
  | [] => sub.isEmpty
  | c :: rest => sub.isPrefixOf (c :: rest) || containsSub rest sub

/-- Index of the first occurrence of `sub` in a suffix of the subject
string, offset by `i` (helper for `String.prototype.indexOf`). -/
def idxAux (sub : Str) : Str → Nat → Option Nat
  | [], i => if sub.isEmpty then some i else none
  | c :: rest, i =>
    if sub.isPrefixOf (c :: rest) then some i else idxAux sub rest (i + 1)

/-- `String.prototype.indexOf sub` (as an `Option`: `none` for -1). -/
def firstIndexOf (s sub : Str) : Option Nat :=
  idxAux sub s 0

/-- ECMAScript `GetSubstitution` for a string (non-regex) search value:
expands `$$`, `$&`, a dollar followed by a backquote, and a dollar
followed by a quote inside the replacement text; every other character
is copied verbatim. -/
def getSubstitution (matched str : Str) (position : Nat) : Str → Str
  | [] => []
  | c :: rest =>
    if c.toNat = 36 then
      match rest with
      | [] => [c]
      | d :: rest2 =>
        if d.toNat = 36 then c :: getSubstitution matched str position rest2
        else if d.toNat = 38 then
          matched ++ getSubstitution matched str position rest2
        else if d.toNat = 96 then
          (str.take position) ++ getSubstitution matched str position rest2
        else if d.toNat = 39 then
          (str.drop (position + matched.length)) ++
            getSubstitution matched str position rest2
        else c :: getSubstitution matched str position (d :: rest2)
    else c :: getSubstitution matched str position rest

/-- `String.prototype.replace(pattern, repl)` with a string pattern:
replaces the first occurrence only, applying `GetSubstitution` to the
replacement text; returns the string unchanged when the pattern does
not occur. -/
def jsReplace (s pattern repl : Str) : Str :=
  match firstIndexOf s pattern with
  | none => s
  | some i =>
    s.take i ++ getSubstitution pattern s i repl ++ s.drop (i + pattern.length)

/-- One attempt of the regex `/var\(\s*(--[\w-]+)/` at the current
position: on success returns the captured name (including the leading
`--`) and the rest of the input after the whole match (the regex engine
resumes scanning from `lastIndex`). -/
def matchVarAt (l : Str) : Option (Str × Str) :=
  match l with
  | 'v' :: 'a' :: 'r' :: '(' :: rest =>
    match rest.dropWhile isJSWhitespace with
    | '-' :: '-' :: rest3 =>
      let name := rest3.takeWhile isNameChar
      if name.isEmpty then none
      else some ('-' :: '-' :: name, rest3.dropWhile isNameChar)
    | _ => none
  | _ => none

/-- Global scan of `/var\(\s*(--[\w-]+)/g`: try a match at each
position, jumping past each successful match. `fuel` bounds the number
of scanning steps; it is always called with the length of the subject,
which suffices because every step consumes at least one character. -/
def scanVarsAux : Nat → Str → List Str
  | 0, _ => []
  | _, [] => []
  | fuel + 1, c :: rest =>
    match matchVarAt (c :: rest) with
    | some (name, restAfter) => name :: scanVarsAux fuel restAfter
    | none => scanVarsAux fuel rest

/-- `getCSSVariables` (src/lib/tokenUtils.js): extracts all
custom-property reference names from a CSS value, in textual order,
including names inside fallback arguments. -/
def getCSSVariables (value : Str) : List Str :=
  scanVarsAux value.length value

example : getCSSVariables "var(--a, var(--b))".toList =
    ["--a".toList, "--b".toList] := by decide

example : getCSSVariables "1px solid var(--a) var(--b)".toList =
    ["--a".toList, "--b".toList] := by decide

example : getCSSVariables "10px solid red".toList = [] := by decide

/-- Source position of a declaration (`node.source.start` / `.end`). -/
structure Pos where
  line : Nat
  column : Nat
  deriving DecidableEq, Repr

/-- Metadata stored for a collected custom-property binding, as built
by `getVarData` (src/lib/externalVars.js). `src` is `none` when the
`src` field is absent from the JS object. -/
structure VarData where
  value : Str
  isExternal : Bool
  start : Pos
  stop : Pos
  src : Option Str
  deriving DecidableEq, Repr

/-- A JS object used as a map from variable names to their metadata
(`foundVariables`), as an association list with unique keys; lookup
returns the first matching entry. -/
abbrev VarMap := List (Str × VarData)

/-- Property read `foundVariables[name]`. -/
def lookupVar (m : VarMap) (name : Str) : Option VarData :=
  match m with
  | [] => none
  | (k, d) :: rest => if k = name then some d else lookupVar rest name

/-- The literal text `var(<name>)` (no fallback argument). -/
def varCall (name : Str) : Str :=
  'v' :: 'a' :: 'r' :: '(' :: (name ++ [')'])

/-- One iteration of the `for (const variable of variables)` loop body
of `buildResolutionTrace` (src/lib/resolutionUtils.js): the accumulator
carries (`nextValue`, `visited`, `changed`). -/
def substVar (bindings : VarMap) (acc : Str × List Str × Bool) (v : Str) :
    Str × List Str × Bool :=
  if v ∈ acc.2.1 then acc
  else
    match lookupVar bindings v with
    | some data =>
      if containsSub acc.1 (varCall v) ∧ data.value ≠ [] then
        (jsReplace acc.1 (varCall v) data.value, acc.2.1 ++ [v], true)
      else (acc.1, acc.2.1 ++ [v], acc.2.2)
    | none => (acc.1, acc.2.1 ++ [v], acc.2.2)

/-- The whole `for` loop over the reference names of the current value. -/
def substStep (bindings : VarMap) (vars : List Str) (current : Str)
    (visited : List Str) : Str × List Str × Bool :=
  vars.foldl (substVar bindings) (current, visited, false)

/-- The `while (true)` loop of `buildResolutionTrace`, returning the
values pushed onto the trace after the current one. `fuel` bounds the
number of iterations; `buildResolutionTrace` supplies one more than the
number of bindings, which never runs out because every continuing
iteration visits a previously unvisited bound name
(`resolveSteps_fuel_congr` below). -/
def resolveSteps (bindings : VarMap) : Nat → List Str → Str → List Str
  | 0, _, _ => []
  | fuel + 1, visited, current =>
    let vars := getCSSVariables current
    if vars.isEmpty then []
    else
      let step := substStep bindings vars current visited
      if step.2.2 = false ∨ step.1 = current then []
      else step.1 :: resolveSteps bindings fuel step.2.1 step.1

/-- `buildResolutionTrace` (src/lib/resolutionUtils.js): iteratively
substitutes exact `var(--name)` occurrences by their bound values,
visiting each reference name at most once, and returns the ordered
list of intermediate values starting with the initial one. -/
def buildResolutionTrace (initialValue : Str) (bindings : VarMap) : List Str :=
  initialValue :: resolveSteps bindings (bindings.length + 1) [] initialValue

/-- Convenient constructor for binding-map entries in examples. -/
def mkBinding (name value : String) : Str × VarData :=
  (name.toList,
   { value := value.toList, isExternal := false,
     start := ⟨0, 0⟩, stop := ⟨0, 0⟩, src := none })

example :
    buildResolutionTrace "var(--a)".toList
      [mkBinding "--a" "var(--b)", mkBinding "--b" "12px"] =
    ["var(--a)".toList, "var(--b)".toList, "12px".toList] := by decide

example :
    buildResolutionTrace "var(--a) var(--c)".toList
      [mkBinding "--a" "var(--b)", mkBinding "--b" "12px",
       mkBinding "--c" "24px"] =
    ["var(--a) var(--c)".toList, "var(--b) 24px".toList,
     "12px 24px".toList] := by decide

example :
    buildResolutionTrace "var(--x)".toList [] = ["var(--x)".toList] := by
  decide

example :
    buildResolutionTrace "var(--a)".toList [mkBinding "--a" "var(--a)"] =
    ["var(--a)".toList] := by decide

/-- `isVariableDefinition` (src/lib/tokenUtils.js): the property is a
CSS custom property, i.e. starts with `--`. -/
def isVariableDefinition (prop : Str) : Bool :=
  "--".toList.isPrefixOf prop

/-- `containsDesignTokenValue` (src/lib/tokenUtils.js): some configured
design-token key occurs in the value as a substring. The configured
`config.designTokenKeys` list is passed explicitly. -/
def containsDesignTokenValue (tokenKeys : List Str) (value : Str) : Bool :=
  tokenKeys.any (fun token => containsSub value token)

/-- `isTokenizableProperty` (src/lib/tokenUtils.js): exact membership
in the configured `config.designTokenProperties` allow-list. -/
def isTokenizableProperty (trackedProps : List Str) (prop : Str) : Bool :=
  trackedProps.contains prop

/-- `String.prototype.split(',')`. -/
def splitOnComma (s : Str) : List Str :=
  match s with
  | [] => [[]]
  | c :: rest =>
    let tail := splitOnComma rest
    if c.toNat = 44 then [] :: tail
    else
      match tail with
      | [] => [[c]]
      | piece :: more => (c :: piece) :: more

/-- The parent rule of a declaration node (`node.parent`). -/
structure ParentNode where
  ptype : Str
  selector : Str
  deriving DecidableEq, Repr

/-- A walkable declaration-like AST node as consumed by the engine:
`{prop, value, parent, source:{start,end}}`. -/
structure CSSNode where
  prop : Str
  value : Str
  parent : Option ParentNode
  start : Pos
  stop : Pos
  deriving DecidableEq, Repr

/-- `isWithinValidParentSelector` (src/lib/tokenUtils.js): the parent
is a rule whose comma-separated selector list contains, after
trimming, a selector matching `/^(?::root$|:host$)/i`, i.e. exactly
`:root` or `:host` case-insensitively. -/
def isWithinValidParentSelector (node : CSSNode) : Bool :=
  match node.parent with
  | none => false
  | some parent =>
    parent.ptype = "rule".toList &&
      (splitOnComma parent.selector).any (fun sel =>
        toLowerJS (trimJS sel) = ":root".toList ||
        toLowerJS (trimJS sel) = ":host".toList)

/-- A value matcher in an exclusion rule: a JS string, or a `RegExp`
abstracted as the predicate `RegExp.prototype.test`. -/
inductive Matcher where
  | str (s : Str)
  | pat (test : Str → Bool)

/-- The `descriptors` field of an exclusion rule: the wildcard string
`'*'`, an array of property names, or anything else (invalid). -/
inductive DescField where
  | star
  | names (l : List Str)
  | bad

/-- An exclusion rule `{descriptors, values}`; `values` is `none` when
the field is missing or falsy. -/
structure ExclusionRule where
  descriptors : DescField
  values : Option (List Matcher)

/-- The declaration argument of `isExcludedDeclaration`: `prop` or
`value` is `none` when the corresponding field is not a string. -/
structure DeclArg where
  prop : Option Str
  value : Option Str

/-- Whether a single matcher fires against the trimmed declaration
value (string matchers case-insensitively, patterns via `test`). -/
def matcherFires (value valueLower : Str) : Matcher → Bool
  | .str s => valueLower = toLowerJS s
  | .pat test => test value

/-- The `for (const rule of rules)` loop of `isExcludedDeclaration`. -/
def excludedLoop (prop value valueLower : Str) :
    List (Option ExclusionRule) → Except String Bool
  | [] => .ok false
  | rule? :: rest =>
    match rule? with
    | none => .error "invalid exclusion rule"
    | some rule =>
      match rule.values with
      | none => .error "invalid exclusion rule"
      | some vals =>
        match rule.descriptors with
        | .bad => .error "invalid exclusion rule"
        | .star =>
          if vals.any (matcherFires value valueLower) then .ok true
          else excludedLoop prop value valueLower rest
        | .names ds =>
          if ds.contains prop then
            if vals.any (matcherFires value valueLower) then .ok true
            else excludedLoop prop value valueLower rest
          else excludedLoop prop value valueLower rest

/-- `isExcludedDeclaration` (src/lib/tokenUtils.js): validates the
declaration and the rule list, then evaluates the ordered rules; a
rule applies when its `descriptors` is `'*'` or contains the trimmed
property name exactly, and the declaration is excluded when any of the
applicable rule's `values` matches the trimmed value (strings
case-insensitively, `RegExp`s by `test`). Throws (models `Except
.error`) on an invalid declaration or rule list. -/
def isExcludedDeclaration (decl : Option DeclArg)
    (rules : Option (List (Option ExclusionRule))) : Except String Bool :=
  match decl with
  | none => .error "Invalid declaration"
  | some d =>
    match d.prop, d.value with
    | some prop0, some value0 =>
      match rules with
      | none => .error "rules not provided"
      | some rs =>
        if rs.isEmpty then .error "rules not provided"
        else
          let prop := trimJS prop0
          let value := trimJS value0
          let valueLower := toLowerJS value
          excludedLoop prop value valueLower rs
    | _, _ => .error "Invalid declaration"

/-- `Array.prototype.some` with a callback that can throw: stops at the
first `true` and propagates the first exception. -/
def someE {α : Type} (f : α → Except String Bool) : List α → Except String Bool
  | [] => .ok false
  | a :: rest =>
    match f a with
    | .error e => .error e
    | .ok true => .ok true
    | .ok false => someE f rest

/-- Result record of `analyzeTrace`. -/
structure TraceAnalysis where
  containsDesignToken : Bool
  containsExcludedDeclaration : Bool
  deriving DecidableEq, Repr

/-- `analyzeTrace` (src/lib/resolutionUtils.js): scans the whole trace
for token keys and for excluded declarations built from the descriptor
(`none` when the argument is omitted) and each trace value; exceptions
from `isExcludedDeclaration` propagate. -/
def analyzeTrace (tokenKeys : List Str)
    (rules : Option (List (Option ExclusionRule)))
    (trace : List Str) (descriptor : Option Str) :
    Except String TraceAnalysis :=
  let tok := trace.any (containsDesignTokenValue tokenKeys)
  match someE (fun traceValue =>
      isExcludedDeclaration (some ⟨descriptor, some traceValue⟩) rules)
      trace with
  | .error e => .error e
  | .ok ex => .ok ⟨tok, ex⟩

/-- Insertion into a JS `Set` realised over lists: append the element
unless it is already present. -/
def jsSetAdd (s : List Str) (x : Str) : List Str :=
  if x ∈ s then s else s ++ [x]

/-- Building a JS `Set` from a list, preserving first-insertion order. -/
def jsSetOfList (l : List Str) : List Str :=
  l.foldl jsSetAdd []

/-- Resolution categories returned by `classifyResolutionFromTrace`
(the JS strings `'direct' | 'local' | 'external' | 'mixed'`). -/
inductive ResolutionType where
  | direct
  | local
  | external
  | mixed
  deriving DecidableEq, Repr

/-- The test `varData.src && varData.src !== currentFile` deciding
whether a binding counts as external: its recorded source file is
present, non-empty and differs from the current file. -/
def isExternalSource (data : VarData) (currentFile : Str) : Bool :=
  match data.src with
  | none => false
  | some s => if s = [] then false else if s = currentFile then false else true

/-- The body of the `for (const varName of allVars)` loop of
`classifyResolutionFromTrace`: the accumulator tracks membership of
`'local'` and `'external'` in the `sources` set; names with no known
binding contribute nothing. -/
def classifySourcesStep (bindings : VarMap) (currentFile : Str)
    (acc : Bool × Bool) (varName : Str) : Bool × Bool :=
  match lookupVar bindings varName with
  | none => acc
  | some varData =>
    if isExternalSource varData currentFile then (acc.1, true)
    else (true, acc.2)

/-- `classifyResolutionFromTrace` (src/lib/resolutionUtils.js):
collects the set of reference names across every trace step; with no
references the value is `direct`; otherwise each referenced name with
a known binding contributes `local` or `external` according to its
source file, and the outcome is `mixed`/`external`/`local`. -/
def classifyResolutionFromTrace (trace : List Str) (bindings : VarMap)
    (currentFile : Str) : ResolutionType :=
  let allVars := jsSetOfList (trace.flatMap getCSSVariables)
  if allVars.isEmpty then .direct
  else
    let sources := allVars.foldl
      (classifySourcesStep bindings currentFile) (false, false)
    if sources.1 ∧ sources.2 then .mixed
    else if sources.2 then .external
    else .local

/-- `getVarData` (src/lib/externalVars.js): metadata for a binding; the
`src` field is only set when the binding is external and a truthy file
path was supplied. -/
def getVarData (node : CSSNode) (isExternal : Bool) (filePath : Option Str) :
    VarData :=
  { value := node.value
    isExternal := isExternal
    start := node.start
    stop := node.stop
    src := if isExternal ∧ filePath.getD [] ≠ [] then filePath else none }

/-- A collected tracked declaration `{property, value, start, end}`. -/
structure TrackedDecl where
  property : Str
  value : Str
  start : Pos
  stop : Pos
  deriving DecidableEq, Repr

/-- The body of the `root.walk` callback of `collectDeclarations`
(src/lib/propagationUtils.js), acting on the accumulated declaration
list and binding map. A node with a falsy (empty) `prop` or `value` is
skipped; a tokenizable property is pushed as a declaration; an
in-scope custom-property definition is added to the binding map only
when its name is not already bound (otherwise it is skipped with a
diagnostic). -/
def collectStep (trackedProps : List Str)
    (acc : List TrackedDecl × VarMap) (node : CSSNode) :
    List TrackedDecl × VarMap :=
  if node.prop = [] ∨ node.value = [] then acc
  else if isTokenizableProperty trackedProps node.prop then
    (acc.1 ++
      [{ property := node.prop, value := node.value,
         start := node.start, stop := node.stop }],
     acc.2)
  else if isVariableDefinition node.prop ∧ isWithinValidParentSelector node then
    match lookupVar acc.2 node.prop with
    | some _ => acc
    | none => (acc.1, acc.2 ++ [(node.prop, getVarData node false none)])
  else acc

/-- `collectDeclarations` (src/lib/propagationUtils.js): one AST walk
collecting tokenizable declarations and local variable bindings. -/
def collectDeclarations (trackedProps : List Str) (nodes : List CSSNode)
    (foundVariables : VarMap) : List TrackedDecl × VarMap :=
  nodes.foldl (collectStep trackedProps) ([], foundVariables)

/-- The state of an `UnresolvedVarTracker` (src/lib/trackUnresolvedVars.js):
`this._vars`, a map from variable name to the set of file paths in
which it was seen, with JS object/Set insertion order. -/
structure UnresolvedVarTracker where
  vars : List (Str × List Str)
  deriving DecidableEq, Repr

/-- Replace the value of the first entry with the given key. -/
def updateFirst (m : List (Str × List Str)) (key : Str) (files : List Str) :
    List (Str × List Str) :=
  match m with
  | [] => []
  | (k, fs) :: rest =>
    if k = key then (k, files) :: rest else (k, fs) :: updateFirst rest key files

/-- Lookup in the tracker map. -/
def trackerLookup (m : List (Str × List Str)) (key : Str) :
    Option (List Str) :=
  match m with
  | [] => none
  | (k, fs) :: rest => if k = key then some fs else trackerLookup rest key

/-- `this._isDesignToken(name)`: the name contains a configured token
key as a substring. -/
def isDesignTokenName (tokenKeys : List Str) (name : Str) : Bool :=
  tokenKeys.any (fun token => containsSub name token)

/-- The per-variable step of `addFromDeclaration`: skip token-like
names; otherwise create the entry on first sight and add the file path
to its set (a no-op when already present). -/
def trackerStep (tokenKeys : List Str) (filePath : Str)
    (m : List (Str × List Str)) (varName : Str) : List (Str × List Str) :=
  if isDesignTokenName tokenKeys varName then m
  else
    match trackerLookup m varName with
    | some files =>
      if filePath ∈ files then m
      else updateFirst m varName (files ++ [filePath])
    | none => m ++ [(varName, [filePath])]

/-- The fields of a resolved declaration consumed by the tracker. -/
structure ResolvedDecl where
  unresolvedVariables : List Str
  deriving DecidableEq, Repr

/-- `UnresolvedVarTracker.addFromDeclaration` (src/lib/trackUnresolvedVars.js). -/
def UnresolvedVarTracker.addFromDeclaration (t : UnresolvedVarTracker)
    (tokenKeys : List Str) (decl : ResolvedDecl) (filePath : Str) :
    UnresolvedVarTracker :=
  if decl.unresolvedVariables.isEmpty then t
  else ⟨decl.unresolvedVariables.foldl (trackerStep tokenKeys filePath) t.vars⟩

/-- One entry of the report of `UnresolvedVarTracker.toReport`. -/
structure UnresolvedReportEntry where
  variable_ : Str
  count : Nat
  files : List Str
  deriving DecidableEq, Repr

/-- `UnresolvedVarTracker.toReport` (src/lib/trackUnresolvedVars.js):
one entry per tracked variable with its distinct-file count and
relative file list, sorted by count descending (stable, as JS sort).
The `path.relative(config.repoPath, ·)` projection is passed in. -/
def UnresolvedVarTracker.toReport (t : UnresolvedVarTracker)
    (rel : Str → Str) : List UnresolvedReportEntry :=
  (t.vars.map (fun entry =>
    { variable_ := entry.1, count := entry.2.length,
      files := entry.2.map rel })).mergeSort
    (fun a b => b.count ≤ a.count)

/-- The state of the `for (const file of node.files)` loop of
`computeAverages` (src/lib/groupingUtils.js):
(`total`, `count`, `processedCount`, `ignoreCount`). A file's
percentage is `none` when `file?.propagationData?.percentage` is not a
number. -/
def averagesStep (acc : ℚ × Nat × Nat × Nat) (pct? : Option ℚ) :
    ℚ × Nat × Nat × Nat :=
  match pct? with
  | some pct =>
    if pct ≠ -1 then (acc.1 + pct, acc.2.1 + 1, acc.2.2.1 + 1, acc.2.2.2)
    else (acc.1, acc.2.1, acc.2.2.1 + 1, acc.2.2.2 + 1)
  | none => (acc.1, acc.2.1, acc.2.2.1 + 1, acc.2.2.2 + 1)

/-- The loop of `computeAverages`, starting from zeroed counters. -/
def averagesState (files : List (Option ℚ)) : ℚ × Nat × Nat × Nat :=
  files.foldl averagesStep (0, 0, 0, 0)

/-- `computeAverages` (src/lib/groupingUtils.js): the value assigned to
`node.averagePropagation`. -/
def computeAverages (files : List (Option ℚ)) : ℚ :=
  let st := averagesState files
  if st.2.2.1 = st.2.2.2 ∧ 0 < st.2.2.2 then -1
  else if st.2.1 ≠ 0 then st.1 / (st.2.1 : ℚ) else 0

/-- The two per-declaration flags attached by
`resolveDeclarationReferences` and consumed by
`computeDesignTokenSummary`. -/
structure AnnotatedDecl where
  containsDesignToken : Bool
  containsExcludedValue : Bool
  deriving DecidableEq, Repr

/-- `computeDesignTokenSummary` (src/lib/propagationUtils.js):
(`designTokenCount`, `ignoredValueCount`). -/
def computeDesignTokenSummary (declarations : List AnnotatedDecl) :
    Nat × Nat :=
  ((declarations.filter (fun d => d.containsDesignToken)).length,
   (declarations.filter
     (fun d => d.containsExcludedValue ∧ ¬d.containsDesignToken)).length)

/-- `Number.prototype.toFixed(2)` followed by unary `+`, on exact
rationals: round to the nearest multiple of 1/100, half away from
zero for the non-negative values produced here. -/
def round2 (q : ℚ) : ℚ :=
  (⌊q * 100 + 1 / 2⌋ : ℚ) / 100

/-- The percentage computation of `getPropagationData`
(src/lib/propagationUtils.js lines 55-62): `-1` when there are no
declarations or the denominator `foundPropValues.length -
ignoredValueCount` is zero, otherwise
`round2((100 / foundLessIgnored) * designTokenCount)`. -/
def getPropagationPercentage (declarations : List AnnotatedDecl) : ℚ :=
  let summary := computeDesignTokenSummary declarations
  let foundLessIgnored : ℤ := (declarations.length : ℤ) - summary.2
  if declarations.length ≠ 0 ∧ foundLessIgnored ≠ 0 then
    round2 ((100 / (foundLessIgnored : ℚ)) * summary.1)
  else -1

/-! ### Claim C1: per-file percentage sentinel policy -/

/-- **C1.** For every analyzed file, with `totalDeclarations` the number
of collected tracked declarations, `trackedCount` the number flagged
excluded-value and not design-token, and `tokenCount` the number flagged
`containsDesignToken`: if `totalDeclarations = 0` or
`totalDeclarations - trackedCount = 0` the percentage is the sentinel
`-1`; otherwise it is `(100 / (totalDeclarations - trackedCount)) *
tokenCount` rounded to 2 decimal places; in particular a file with 4
declarations of which 1 is excluded-and-not-a-token, 1 is a token and 2
are neither scores `33.33`. -/
theorem C1_percentage_policy :
    (∀ declarations : List AnnotatedDecl,
      ((declarations.length = 0 ∨
          (declarations.length : ℤ) -
            ((declarations.filter
              (fun d => d.containsExcludedValue &&
                !d.containsDesignToken)).length : ℤ) = 0) →
        getPropagationPercentage declarations = -1) ∧
      (declarations.length ≠ 0 →
        (declarations.length : ℤ) -
          ((declarations.filter
            (fun d => d.containsExcludedValue &&
              !d.containsDesignToken)).length : ℤ) ≠ 0 →
        getPropagationPercentage declarations =
          round2 ((100 /
            (((declarations.length : ℤ) -
              ((declarations.filter
                (fun d => d.containsExcludedValue &&
                  !d.containsDesignToken)).length : ℤ) : ℤ) : ℚ)) *
            ((declarations.filter
              (fun d => d.containsDesignToken)).length : ℚ)))) ∧
    getPropagationPercentage
      [⟨false, true⟩, ⟨true, false⟩, ⟨false, false⟩, ⟨false, false⟩] =
      3333 / 100 := by
  refine ⟨fun declarations => ⟨?_, ?_⟩, ?_⟩
  · intro h
    rcases h with h | h
    · simp [getPropagationPercentage, computeDesignTokenSummary, h]
    · simp [getPropagationPercentage, computeDesignTokenSummary, h]
  · intro h1 h2
    simp [getPropagationPercentage, computeDesignTokenSummary, h1, h2]
  · simp only [getPropagationPercentage, computeDesignTokenSummary]
    norm_num [List.filter]
    rw [round2]
    have hfl : ⌊(100 : ℚ) / 3 * 100 + 1 / 2⌋ = 3333 := by
      rw [Int.floor_eq_iff]
      constructor <;> norm_num
    rw [hfl]
    norm_num

/-- Witness for the hypothesis-bearing conjuncts of `C1_percentage_policy`,
at the concrete 4-declaration file of the claim. -/
theorem C1_percentage_policy_witness :
    getPropagationPercentage
      [⟨false, true⟩, ⟨true, false⟩, ⟨false, false⟩, ⟨false, false⟩] =
      round2 (100 / 3) ∧
    getPropagationPercentage [⟨false, true⟩] = -1 := by
  constructor
  · have h := ((C1_percentage_policy.1
      [⟨false, true⟩, ⟨true, false⟩, ⟨false, false⟩, ⟨false, false⟩]).2
      (by decide) (by decide))
    simpa using h
  · exact (C1_percentage_policy.1 [⟨false, true⟩]).1 (by decide)

/-! ### Claim C5: directory average sentinel policy -/

/-- Characterization of the `computeAverages` loop state over a group
whose members all carry numeric percentages. -/
theorem averagesState_map_some (pcts : List ℚ) (acc : ℚ × Nat × Nat × Nat) :
    (pcts.map some).foldl averagesStep acc =
      (acc.1 + (pcts.filter (fun p => p ≠ -1)).sum,
       acc.2.1 + (pcts.filter (fun p => p ≠ -1)).length,
       acc.2.2.1 + pcts.length,
       acc.2.2.2 + (pcts.filter (fun p => p = -1)).length) := by
  induction pcts generalizing acc with
  | nil => simp
  | cons p rest ih =>
    simp only [List.map_cons, List.foldl_cons]
    by_cases hp : p = -1
    · have hstep : averagesStep acc (some p) =
        (acc.1, acc.2.1, acc.2.2.1 + 1, acc.2.2.2 + 1) := by
        simp [averagesStep, hp]
      rw [hstep, ih]
      simp only [List.filter_cons, hp]
      norm_num
      refine ⟨by omega, by omega⟩
    · have hstep : averagesStep acc (some p) =
        (acc.1 + p, acc.2.1 + 1, acc.2.2.1 + 1, acc.2.2.2) := by
        simp [averagesStep, hp]
      rw [hstep, ih]
      simp only [List.filter_cons, hp]
      norm_num
      simp only [if_neg hp, List.sum_cons, List.length_cons]
      refine ⟨by ring, by omega, by omega⟩

/-- Lengths of the two complementary filters of the percentage list. -/
theorem filter_sentinel_partition (pcts : List ℚ) :
    (pcts.filter (fun p => p ≠ -1)).length +
      (pcts.filter (fun p => p = -1)).length = pcts.length := by
  induction pcts with
  | nil => simp
  | cons p rest ih =>
    simp only [List.filter_cons]
    by_cases hp : p = -1 <;> simp [hp] at ih ⊢ <;> omega

/-- **C5.** Over a directory group of files that all have numeric
percentages: the average is `-1` (not `0`, and in exact rationals no
`NaN` exists) when the group is non-empty and every percentage is `-1`;
it is `0` for an empty group; and otherwise it is the arithmetic mean of
the percentages different from `-1`. -/
theorem C5_average_policy :
    ∀ pcts : List ℚ,
      (pcts ≠ [] → (∀ p ∈ pcts, p = -1) →
        computeAverages (pcts.map some) = -1) ∧
      (pcts = [] → computeAverages (pcts.map some) = 0) ∧
      ((∃ p ∈ pcts, p ≠ -1) →
        computeAverages (pcts.map some) =
          (pcts.filter (fun p => p ≠ -1)).sum /
            ((pcts.filter (fun p => p ≠ -1)).length : ℚ)) := by
  intro pcts
  refine ⟨?_, ?_, ?_⟩
  · intro hne hall
    have hfe : pcts.filter (fun p => p ≠ -1) = [] := by
      rw [List.filter_eq_nil_iff]
      intro p hp
      simpa using hall p hp
    have hlen : (pcts.filter (fun p => p = -1)).length = pcts.length := by
      have := filter_sentinel_partition pcts
      rw [hfe] at this
      simpa using this
    have hpos : 0 < pcts.length := List.length_pos.mpr hne
    simp only [computeAverages, averagesState, averagesState_map_some,
      zero_add]
    rw [if_pos ⟨by omega, by omega⟩]
  · intro h
    subst h
    simp [computeAverages, averagesState]
  · intro h
    obtain ⟨p, hp, hpne⟩ := h
    have hmem : p ∈ pcts.filter (fun p => p ≠ -1) :=
      List.mem_filter.mpr ⟨hp, by simpa using hpne⟩
    have hcount : 0 < (pcts.filter (fun p => p ≠ -1)).length :=
      List.length_pos.mpr (List.ne_nil_of_mem hmem)
    have hpart := filter_sentinel_partition pcts
    simp only [computeAverages, averagesState, averagesState_map_some,
      zero_add]
    rw [if_neg (by omega), if_pos (by omega)]

/-- Witness for `C5_average_policy`: a group of two `-1` files averages
`-1`; the empty group averages `0`; a group `[50, -1]` averages `50`. -/
theorem C5_average_policy_witness :
    computeAverages ([(-1 : ℚ), -1].map some) = -1 ∧
    computeAverages (([] : List ℚ).map some) = 0 ∧
    computeAverages ([(50 : ℚ), -1].map some) =
      ([(50 : ℚ), -1].filter (fun p => p ≠ -1)).sum /
        (([(50 : ℚ), -1].filter (fun p => p ≠ -1)).length : ℚ) := by
  refine ⟨(C5_average_policy [-1, -1]).1 (by decide) ?_,
    (C5_average_policy []).2.1 rfl,
    (C5_average_policy [50, -1]).2.2 ⟨50, by norm_num⟩⟩
  intro p hp
  simp at hp
  simp [hp]

/-! ### Claim C4: negated value matchers -/

deriving instance DecidableEq for Except

/-- The concrete declaration `color: red` used against `'!'`-prefixed
matchers. -/
def c4Decl : Option DeclArg :=
  some ⟨some "color".toList, some "red".toList⟩

/-- A rule list whose first wildcard rule holds the negated matcher
`"!red"` and whose second wildcard rule holds the plain matcher
`"red"`. -/
def c4Rules : Option (List (Option ExclusionRule)) :=
  some [some ⟨.star, some [.str "!red".toList]⟩,
        some ⟨.star, some [.str "red".toList]⟩]

/-- **C4 counterexample.** The claim predicts that the negated matcher
`"!red"` of the first (applicable, wildcard) rule fires on the value
`red` and short-circuits the evaluation to `false`; the code instead
compares `"!red"` literally, does not match, moves on to the second
rule and returns `true`. -/
theorem C4_counterexample :
    isExcludedDeclaration c4Decl c4Rules = Except.ok true ∧
    "!red".toList = '!' :: "red".toList ∧
    toLowerJS (trimJS "red".toList) = "red".toList := by
  refine ⟨?_, by decide, by decide⟩
  decide

/-- Whether a rule's `descriptors` apply to the trimmed property name
(`rule.descriptors === '*' ? true : rule.descriptors.includes(prop)`). -/
def ruleAppliesTo (prop : Str) : DescField → Bool
  | .star => true
  | .names ds => ds.contains prop
  | .bad => false

/-- The loop of `isExcludedDeclaration` characterised on its boolean
results: `true` exactly when some applicable rule has a firing
matcher. -/
theorem excludedLoop_ok_iff (prop value valueLower : Str) :
    ∀ (rs : List (Option ExclusionRule)) (b : Bool),
      excludedLoop prop value valueLower rs = .ok b →
      (b = true ↔ ∃ rule? ∈ rs, ∃ rule, rule? = some rule ∧
        ruleAppliesTo prop rule.descriptors = true ∧
        (rule.values.getD []).any (matcherFires value valueLower) = true) := by
  intro rs
  induction rs with
  | nil =>
    intro b hb
    simp only [excludedLoop] at hb
    cases hb
    simp
  | cons rule? rest ih =>
    intro b hb
    cases rule? with
    | none => simp [excludedLoop] at hb
    | some rule =>
      rcases hvals : rule.values with _ | vals
      · simp [excludedLoop, hvals] at hb
      · rcases hdesc : rule.descriptors with _ | ds | _
        · by_cases hfire : vals.any (matcherFires value valueLower) = true
          · simp only [excludedLoop, hvals, hdesc, if_pos hfire] at hb
            cases hb
            simp only [true_iff]
            exact ⟨some rule, by simp, rule, rfl, by rw [hdesc]; rfl,
              by simp [hvals, hfire]⟩
          · simp only [excludedLoop, hvals, hdesc, if_neg hfire] at hb
            rw [ih b hb]
            constructor
            · rintro ⟨r, hr, ru, rfl, hap, hfi⟩
              exact ⟨some ru, by simp [hr], ru, rfl, hap, hfi⟩
            · rintro ⟨r, hr, ru, rfl, hap, hfi⟩
              rcases List.mem_cons.mp hr with h | h
              · cases h
                rw [hvals] at hfi
                simp only [Option.getD_some] at hfi
                exact absurd hfi hfire
              · exact ⟨some ru, h, ru, rfl, hap, hfi⟩
        · by_cases hprop : ds.contains prop = true
          · by_cases hfire : vals.any (matcherFires value valueLower) = true
            · simp only [excludedLoop, hvals, hdesc, if_pos hprop,
                if_pos hfire] at hb
              cases hb
              simp only [true_iff]
              exact ⟨some rule, by simp, rule, rfl,
                by rw [hdesc]; simpa [ruleAppliesTo] using hprop,
                by simp [hvals, hfire]⟩
            · simp only [excludedLoop, hvals, hdesc, if_pos hprop,
                if_neg hfire] at hb
              rw [ih b hb]
              constructor
              · rintro ⟨r, hr, ru, rfl, hap, hfi⟩
                exact ⟨some ru, by simp [hr], ru, rfl, hap, hfi⟩
              · rintro ⟨r, hr, ru, rfl, hap, hfi⟩
                rcases List.mem_cons.mp hr with h | h
                · cases h
                  rw [hvals] at hfi
                  simp only [Option.getD_some] at hfi
                  exact absurd hfi hfire
                · exact ⟨some ru, h, ru, rfl, hap, hfi⟩
          · simp only [excludedLoop, hvals, hdesc, if_neg hprop] at hb
            rw [ih b hb]
            constructor
            · rintro ⟨r, hr, ru, rfl, hap, hfi⟩
              exact ⟨some ru, by simp [hr], ru, rfl, hap, hfi⟩
            · rintro ⟨r, hr, ru, rfl, hap, hfi⟩
              rcases List.mem_cons.mp hr with h | h
              · cases h
                rw [hdesc] at hap
                simp only [ruleAppliesTo] at hap
                exact absurd hap hprop
              · exact ⟨some ru, h, ru, rfl, hap, hfi⟩
        · simp [excludedLoop, hvals, hdesc] at hb

/-- **C4 amended.** A `'!'`-prefixed string matcher has no negating
effect: every string matcher (including those beginning with `'!'`) is
compared literally and case-insensitively against the trimmed value and
never short-circuits the remaining rules to `false`. Whenever
`isExcludedDeclaration` returns a boolean, it returns `true` exactly
when some applicable rule (in any position) has a matcher that fires on
the trimmed value. -/
theorem C4_amended_first_match (prop value : Str)
    (rs : List (Option ExclusionRule)) (b : Bool)
    (h : isExcludedDeclaration (some ⟨some prop, some value⟩) (some rs) =
      .ok b) :
    b = true ↔ ∃ rule? ∈ rs, ∃ rule, rule? = some rule ∧
      ruleAppliesTo (trimJS prop) rule.descriptors = true ∧
      (rule.values.getD []).any
        (matcherFires (trimJS value) (toLowerJS (trimJS value))) = true := by
  by_cases hrs : rs.isEmpty
  · simp only [isExcludedDeclaration] at h
    rw [if_pos hrs] at h
    cases h
  · simp only [isExcludedDeclaration] at h
    rw [if_neg hrs] at h
    exact excludedLoop_ok_iff (trimJS prop) (trimJS value)
      (toLowerJS (trimJS value)) rs b h

/-- Witness for `C4_amended_first_match`: for `color: red` against the
single wildcard rule with matcher `"red"`, the returned `true` is
explained by that rule. -/
theorem C4_amended_first_match_witness :
    ∃ rule? ∈ [some (⟨.star, some [.str "red".toList]⟩ : ExclusionRule)],
      ∃ rule, rule? = some rule ∧
        ruleAppliesTo (trimJS "color".toList) rule.descriptors = true ∧
        (rule.values.getD []).any
          (matcherFires (trimJS "red".toList)
            (toLowerJS (trimJS "red".toList))) = true :=
  (C4_amended_first_match "color".toList "red".toList
    [some ⟨.star, some [.str "red".toList]⟩] true (by decide)).mp rfl

/-! ### Claim C10: validation guards of isExcludedDeclaration -/

/-- **C10.** `isExcludedDeclaration` throws for every missing
declaration and for every declaration whose `prop` or `value` is not a
string — in particular `analyzeTrace` invoked without its descriptor
argument throws on any non-empty trace — and likewise throws for every
rules argument that is not a non-empty array; it returns a boolean only
when both guards pass. -/
theorem C10_validation_guards :
    (∀ rules, isExcludedDeclaration none rules =
      .error "Invalid declaration") ∧
    (∀ (d : DeclArg) rules, d.prop = none ∨ d.value = none →
      isExcludedDeclaration (some d) rules = .error "Invalid declaration") ∧
    (∀ tokenKeys rules (trace : List Str), trace ≠ [] →
      analyzeTrace tokenKeys rules trace none =
        .error "Invalid declaration") ∧
    (∀ (prop value : Str), isExcludedDeclaration
      (some ⟨some prop, some value⟩) none = .error "rules not provided") ∧
    (∀ (prop value : Str), isExcludedDeclaration
      (some ⟨some prop, some value⟩) (some []) =
        .error "rules not provided") ∧
    (∀ decl rules (b : Bool), isExcludedDeclaration decl rules = .ok b →
      (∃ p v, decl = some ⟨some p, some v⟩) ∧
      ∃ rs, rules = some rs ∧ rs ≠ []) := by
  refine ⟨fun rules => rfl, ?_, ?_, fun prop value => rfl,
    fun prop value => rfl, ?_⟩
  · rintro ⟨p?, v?⟩ rules h
    rcases h with h | h
    · cases h
      rfl
    · cases h
      cases p? <;> rfl
  · intro tokenKeys rules trace htrace
    rcases trace with _ | ⟨v, rest⟩
    · exact absurd rfl htrace
    · rfl
  · intro decl rules b h
    rcases decl with _ | ⟨p?, v?⟩
    · cases h
    · rcases p? with _ | p
      · cases h
      · rcases v? with _ | v
        · cases h
        · rcases rules with _ | rs
          · cases h
          · rcases hrs : rs.isEmpty with _ | _
            · refine ⟨⟨p, v, rfl⟩, rs, rfl, ?_⟩
              simpa using hrs
            · simp only [isExcludedDeclaration] at h
              rw [if_pos hrs] at h
              cases h

/-- Witness for `C10_validation_guards`: concrete throwing calls and
one concrete boolean-returning call. -/
theorem C10_validation_guards_witness :
    analyzeTrace [] (some [some ⟨.star, some []⟩]) ["red".toList] none =
      .error "Invalid declaration" ∧
    isExcludedDeclaration (some ⟨some "color".toList, none⟩) none =
      .error "Invalid declaration" ∧
    isExcludedDeclaration
      (some ⟨some "color".toList, some "red".toList⟩) (some []) =
      .error "rules not provided" ∧
    (∃ p v, (some (⟨some "color".toList, some "red".toList⟩ : DeclArg)) =
      some ⟨some p, some v⟩) := by
  refine ⟨C10_validation_guards.2.2.1 [] (some [some ⟨.star, some []⟩])
      ["red".toList] (by simp),
    C10_validation_guards.2.1 ⟨some "color".toList, none⟩ none (Or.inr rfl),
    C10_validation_guards.2.2.2.2.1 "color".toList "red".toList,
    (C10_validation_guards.2.2.2.2.2
      (some ⟨some "color".toList, some "red".toList⟩)
      (some [some ⟨.star, some []⟩]) false (by decide)).1⟩

/-! ### Claims C6 and C8: resolution-type classification -/

/-- A referenced name counts as a local source: it has a binding whose
recorded source file is absent, empty, or the current file itself. -/
def boundLocal (bindings : VarMap) (currentFile : Str) (v : Str) : Bool :=
  match lookupVar bindings v with
  | some d => !(isExternalSource d currentFile)
  | none => false

/-- A referenced name counts as an external source: it has a binding
whose recorded source file is a different file. -/
def boundExternal (bindings : VarMap) (currentFile : Str) (v : Str) : Bool :=
  match lookupVar bindings v with
  | some d => isExternalSource d currentFile
  | none => false

theorem mem_foldl_jsSetAdd (l : List Str) (acc : List Str) (x : Str) :
    x ∈ l.foldl jsSetAdd acc ↔ x ∈ acc ∨ x ∈ l := by
  induction l generalizing acc with
  | nil => simp
  | cons y rest ih =>
    simp only [List.foldl_cons, ih, jsSetAdd]
    by_cases hy : y ∈ acc
    · rw [if_pos hy]
      constructor
      · rintro (h | h)
        · exact Or.inl h
        · simp [h]
      · rintro (h | h)
        · exact Or.inl h
        · rcases List.mem_cons.mp h with h | h
          · subst h
            exact Or.inl hy
          · exact Or.inr h
    · rw [if_neg hy]
      simp only [List.mem_append, List.mem_singleton, List.mem_cons]
      tauto

theorem mem_jsSetOfList (l : List Str) (x : Str) :
    x ∈ jsSetOfList l ↔ x ∈ l := by
  simp [jsSetOfList, mem_foldl_jsSetAdd]

theorem jsSetOfList_eq_nil_iff (l : List Str) :
    jsSetOfList l = [] ↔ l = [] := by
  constructor
  · intro h
    rw [List.eq_nil_iff_forall_not_mem]
    intro x hx
    have := (mem_jsSetOfList l x).mpr hx
    simp [h] at this
  · rintro rfl
    rfl

theorem classifySources_foldl (bindings : VarMap) (currentFile : Str)
    (l : List Str) (acc : Bool × Bool) :
    l.foldl (classifySourcesStep bindings currentFile) acc =
      (acc.1 || l.any (boundLocal bindings currentFile),
       acc.2 || l.any (boundExternal bindings currentFile)) := by
  induction l generalizing acc with
  | nil => simp
  | cons v rest ih =>
    simp only [List.foldl_cons, List.any_cons]
    rcases hv : lookupVar bindings v with _ | d
    · have hstep : classifySourcesStep bindings currentFile acc v = acc := by
        simp [classifySourcesStep, hv]
      rw [hstep, ih]
      simp [boundLocal, boundExternal, hv]
    · rcases hext : isExternalSource d currentFile with _ | _
      · have hstep : classifySourcesStep bindings currentFile acc v =
          (true, acc.2) := by
          simp [classifySourcesStep, hv, hext]
        rw [hstep, ih]
        simp [boundLocal, boundExternal, hv, hext, Bool.or_comm,
          Bool.or_assoc, Bool.or_left_comm]
      · have hstep : classifySourcesStep bindings currentFile acc v =
          (acc.1, true) := by
          simp [classifySourcesStep, hv, hext]
        rw [hstep, ih]
        simp [boundLocal, boundExternal, hv, hext, Bool.or_comm,
          Bool.or_assoc, Bool.or_left_comm]

/-- Closed-form characterization of `classifyResolutionFromTrace`. -/
theorem classify_spec (trace : List Str) (bindings : VarMap)
    (currentFile : Str) :
    classifyResolutionFromTrace trace bindings currentFile =
      (if trace.flatMap getCSSVariables = [] then .direct
       else if (trace.flatMap getCSSVariables).any
             (boundLocal bindings currentFile) = true ∧
           (trace.flatMap getCSSVariables).any
             (boundExternal bindings currentFile) = true then .mixed
       else if (trace.flatMap getCSSVariables).any
           (boundExternal bindings currentFile) = true then .external
       else .local) := by
  have hany : ∀ p : Str → Bool,
      (jsSetOfList (trace.flatMap getCSSVariables)).any p =
        (trace.flatMap getCSSVariables).any p := by
    intro p
    rcases h : (trace.flatMap getCSSVariables).any p with _ | _
    · rw [Bool.eq_false_iff]
      intro hc
      obtain ⟨x, hx, hpx⟩ := List.any_eq_true.mp hc
      rw [mem_jsSetOfList] at hx
      have : (trace.flatMap getCSSVariables).any p = true :=
        List.any_eq_true.mpr ⟨x, hx, hpx⟩
      simp [this] at h
    · obtain ⟨x, hx, hpx⟩ := List.any_eq_true.mp h
      exact List.any_eq_true.mpr ⟨x, (mem_jsSetOfList _ x).mpr hx, hpx⟩
  by_cases hnil : trace.flatMap getCSSVariables = []
  · simp [classifyResolutionFromTrace, hnil, jsSetOfList]
  · have hne : ¬(jsSetOfList (trace.flatMap getCSSVariables)).isEmpty = true := by
      rw [List.isEmpty_iff]
      intro h
      exact hnil ((jsSetOfList_eq_nil_iff _).mp h)
    simp only [classifyResolutionFromTrace, if_neg hne,
      classifySources_foldl, Bool.false_or, hany, if_neg hnil]

/-- **C6.** `classifyResolutionFromTrace` returns `direct` when the
union of reference names across the trace is empty; otherwise,
considering only referenced names with a known binding, it returns
`mixed` when both a local binding (same file, or no recorded source
file) and an external binding (a different file) are referenced,
`external` when only external bindings are referenced, and `local`
otherwise. -/
theorem C6_classification :
    ∀ (trace : List Str) (bindings : VarMap) (currentFile : Str),
      (trace.flatMap getCSSVariables = [] →
        classifyResolutionFromTrace trace bindings currentFile = .direct) ∧
      ((∃ v ∈ trace.flatMap getCSSVariables,
          boundLocal bindings currentFile v = true) →
       (∃ v ∈ trace.flatMap getCSSVariables,
          boundExternal bindings currentFile v = true) →
        classifyResolutionFromTrace trace bindings currentFile = .mixed) ∧
      (¬(∃ v ∈ trace.flatMap getCSSVariables,
          boundLocal bindings currentFile v = true) →
       (∃ v ∈ trace.flatMap getCSSVariables,
          boundExternal bindings currentFile v = true) →
        classifyResolutionFromTrace trace bindings currentFile = .external) ∧
      (trace.flatMap getCSSVariables ≠ [] →
       ¬(∃ v ∈ trace.flatMap getCSSVariables,
          boundExternal bindings currentFile v = true) →
        classifyResolutionFromTrace trace bindings currentFile = .local) := by
  intro trace bindings currentFile
  refine ⟨?_, ?_, ?_, ?_⟩
  · intro h
    rw [classify_spec, if_pos h]
  · intro hl he
    have hl' := List.any_eq_true.mpr hl
    have he' := List.any_eq_true.mpr he
    obtain ⟨v, hv, _⟩ := hl
    rw [classify_spec, if_neg (List.ne_nil_of_mem hv), if_pos ⟨hl', he'⟩]
  · intro hl he
    have he' := List.any_eq_true.mpr he
    have hl' : ¬(trace.flatMap getCSSVariables).any
        (boundLocal bindings currentFile) = true := fun hc =>
      hl (List.any_eq_true.mp hc)
    obtain ⟨v, hv, _⟩ := he
    rw [classify_spec, if_neg (List.ne_nil_of_mem hv),
      if_neg (fun hc => hl' hc.1), if_pos he']
  · intro hne he
    have he' : ¬(trace.flatMap getCSSVariables).any
        (boundExternal bindings currentFile) = true := fun hc =>
      he (List.any_eq_true.mp hc)
    rw [classify_spec, if_neg hne, if_neg (fun hc => he' hc.2), if_neg he']

/-- A concrete binding with a recorded external source file. -/
def mkExternalBinding (name value src : String) : Str × VarData :=
  (name.toList,
   { value := value.toList, isExternal := true,
     start := ⟨0, 0⟩, stop := ⟨0, 0⟩, src := some src.toList })

/-- Witness for `C6_classification`: a trace referencing one locally
bound and one externally bound name is `mixed`; a trace with no
references is `direct`. -/
theorem C6_classification_witness :
    classifyResolutionFromTrace ["var(--l) var(--e)".toList]
      [mkBinding "--l" "1px", mkExternalBinding "--e" "2px" "other.css"]
      "me.css".toList = .mixed ∧
    classifyResolutionFromTrace ["12px".toList] [] "me.css".toList =
      .direct := by
  constructor
  · exact (C6_classification ["var(--l) var(--e)".toList]
      [mkBinding "--l" "1px", mkExternalBinding "--e" "2px" "other.css"]
      "me.css".toList).2.1
      ⟨"--l".toList, by decide, by decide⟩ ⟨"--e".toList, by decide, by decide⟩
  · exact (C6_classification ["12px".toList] [] "me.css".toList).1 (by decide)

/-- **C8.** When a trace references at least one custom-property name
but none of the referenced names has a binding, the classification is
`local` (not `direct`): unbound names contribute no source and the
empty source set falls through to the `local` branch. -/
theorem C8_unbound_references_local :
    ∀ (trace : List Str) (bindings : VarMap) (currentFile : Str),
      trace.flatMap getCSSVariables ≠ [] →
      (∀ v ∈ trace.flatMap getCSSVariables, lookupVar bindings v = none) →
      classifyResolutionFromTrace trace bindings currentFile = .local := by
  intro trace bindings currentFile hne hnone
  have hl : ¬(trace.flatMap getCSSVariables).any
      (boundLocal bindings currentFile) = true := by
    intro hc
    obtain ⟨v, hv, hp⟩ := List.any_eq_true.mp hc
    rw [boundLocal, hnone v hv] at hp
    cases hp
  have he : ¬(trace.flatMap getCSSVariables).any
      (boundExternal bindings currentFile) = true := by
    intro hc
    obtain ⟨v, hv, hp⟩ := List.any_eq_true.mp hc
    rw [boundExternal, hnone v hv] at hp
    cases hp
  rw [classify_spec, if_neg hne, if_neg (fun hc => he hc.2), if_neg he]

/-- Witness for `C8_unbound_references_local`: the trace
`['var(--x)']` against an empty binding map classifies as `local`. -/
theorem C8_unbound_references_local_witness :
    classifyResolutionFromTrace ["var(--x)".toList] [] "me.css".toList =
      .local :=
  C8_unbound_references_local ["var(--x)".toList] [] "me.css".toList
    (by decide) (by decide)

/-! ### Claim C7: bindings are never overwritten, first occurrence wins -/

theorem lookupVar_append_of_some (m l : VarMap) (name : Str) (d : VarData)
    (h : lookupVar m name = some d) : lookupVar (m ++ l) name = some d := by
  induction m with
  | nil => cases h
  | cons e rest ih =>
    rw [lookupVar] at h
    by_cases he : e.1 = name
    · rw [if_pos he] at h
      rw [List.cons_append, lookupVar, if_pos he]
      exact h
    · rw [if_neg he] at h
      rw [List.cons_append, lookupVar, if_neg he]
      exact ih h

theorem lookupVar_append_of_none (m l : VarMap) (name : Str)
    (h : lookupVar m name = none) :
    lookupVar (m ++ l) name = lookupVar l name := by
  induction m with
  | nil => rfl
  | cons e rest ih =>
    rw [lookupVar] at h
    by_cases he : e.1 = name
    · rw [if_pos he] at h
      cases h
    · rw [if_neg he] at h
      rw [List.cons_append, lookupVar, if_neg he]
      exact ih h

/-- The walk branch under which a node defines a collectable local
custom property: truthy `prop` and `value`, not a tokenizable property,
a custom-property name, and an acceptable parent scope. -/
def eligibleVarDef (trackedProps : List Str) (node : CSSNode) : Bool :=
  !node.prop.isEmpty && !node.value.isEmpty &&
  !(isTokenizableProperty trackedProps node.prop) &&
  (isVariableDefinition node.prop && isWithinValidParentSelector node)

theorem collect_preserves (trackedProps : List Str) :
    ∀ (nodes : List CSSNode) (acc : List TrackedDecl × VarMap)
      (name : Str) (d : VarData),
      lookupVar acc.2 name = some d →
      lookupVar ((nodes.foldl (collectStep trackedProps) acc)).2 name =
        some d := by
  intro nodes
  induction nodes with
  | nil => intro acc name d h; exact h
  | cons n rest ih =>
    intro acc name d h
    rw [List.foldl_cons]
    refine ih _ name d ?_
    rw [collectStep]
    by_cases hA : n.prop = [] ∨ n.value = []
    · rw [if_pos hA]
      exact h
    · rw [if_neg hA]
      by_cases hB : isTokenizableProperty trackedProps n.prop = true
      · rw [if_pos hB]
        exact h
      · rw [if_neg hB]
        by_cases hC : isVariableDefinition n.prop = true ∧
            isWithinValidParentSelector n = true
        · rw [if_pos hC]
          rcases hl : lookupVar acc.2 n.prop with _ | d'
          · exact lookupVar_append_of_some _ _ _ _ h
          · exact h
        · rw [if_neg hC]
          exact h

theorem collect_first_wins (trackedProps : List Str) :
    ∀ (nodes : List CSSNode) (acc : List TrackedDecl × VarMap) (name : Str),
      lookupVar acc.2 name = none →
      lookupVar ((nodes.foldl (collectStep trackedProps) acc)).2 name =
        (nodes.find? (fun n => eligibleVarDef trackedProps n &&
          decide (n.prop = name))).map (fun n => getVarData n false none) := by
  intro nodes
  induction nodes with
  | nil => intro acc name h; simpa using h
  | cons n rest ih =>
    intro acc name h
    rw [List.foldl_cons]
    by_cases hA : n.prop = [] ∨ n.value = []
    · have hstep : collectStep trackedProps acc n = acc := by
        rw [collectStep, if_pos hA]
      have hpred : ¬(eligibleVarDef trackedProps n &&
          decide (n.prop = name)) = true := by
        rcases hA with hA | hA <;> simp [eligibleVarDef, hA]
      rw [hstep, @List.find?_cons_of_neg _ (fun n => eligibleVarDef trackedProps n && decide (n.prop = name)) n rest hpred]
      exact ih acc name h
    · by_cases hB : isTokenizableProperty trackedProps n.prop = true
      · have hstep : collectStep trackedProps acc n =
            (acc.1 ++ [TrackedDecl.mk n.prop n.value n.start n.stop],
             acc.2) := by
          rw [collectStep, if_neg hA, if_pos hB]
        have hpred : ¬(eligibleVarDef trackedProps n &&
            decide (n.prop = name)) = true := by
          simp [eligibleVarDef, hB]
        rw [hstep, @List.find?_cons_of_neg _ (fun n => eligibleVarDef trackedProps n && decide (n.prop = name)) n rest hpred]
        exact ih _ name h
      · by_cases hC : isVariableDefinition n.prop = true ∧
            isWithinValidParentSelector n = true
        · rcases hl : lookupVar acc.2 n.prop with _ | d'
          · have hstep : collectStep trackedProps acc n =
                (acc.1, acc.2 ++ [(n.prop, getVarData n false none)]) := by
              rw [collectStep, if_neg hA, if_neg hB, if_pos hC, hl]
            by_cases hname : n.prop = name
            · subst hname
              have hpred : (eligibleVarDef trackedProps n &&
                  decide (n.prop = n.prop)) = true := by
                push_neg at hA
                simp [eligibleVarDef, hA.1, hA.2, hB, hC.1, hC.2]
              rw [hstep, @List.find?_cons_of_pos _ (fun m => eligibleVarDef trackedProps m && decide (m.prop = n.prop)) n rest hpred]
              refine collect_preserves trackedProps rest _ n.prop _ ?_
              have heq : lookupVar
                  (acc.2 ++ [(n.prop, getVarData n false none)]) n.prop =
                  lookupVar [(n.prop, getVarData n false none)] n.prop :=
                lookupVar_append_of_none _ _ _ h
              rw [heq, lookupVar, if_pos rfl]
            · have hpred : ¬(eligibleVarDef trackedProps n &&
                  decide (n.prop = name)) = true := by
                simp [hname]
              rw [hstep, @List.find?_cons_of_neg _ (fun n => eligibleVarDef trackedProps n && decide (n.prop = name)) n rest hpred]
              refine ih _ name ?_
              have : lookupVar (acc.2 ++ [(n.prop, getVarData n false none)])
                  name = lookupVar [(n.prop, getVarData n false none)] name :=
                lookupVar_append_of_none _ _ _ h
              rw [this, lookupVar, if_neg hname]
              rfl
          · have hstep : collectStep trackedProps acc n = acc := by
              rw [collectStep, if_neg hA, if_neg hB, if_pos hC, hl]
            have hname : ¬n.prop = name := by
              intro hc
              rw [hc, h] at hl
              cases hl
            have hpred : ¬(eligibleVarDef trackedProps n &&
                decide (n.prop = name)) = true := by
              simp [hname]
            rw [hstep, @List.find?_cons_of_neg _ (fun n => eligibleVarDef trackedProps n && decide (n.prop = name)) n rest hpred]
            exact ih acc name h
        · have hstep : collectStep trackedProps acc n = acc := by
            rw [collectStep, if_neg hA, if_neg hB, if_neg hC]
          have hpred : ¬(eligibleVarDef trackedProps n &&
              decide (n.prop = name)) = true := by
            rcases Decidable.not_and_iff_or_not.mp hC with hc | hc <;>
              simp [eligibleVarDef, hc]
          rw [hstep, @List.find?_cons_of_neg _ (fun n => eligibleVarDef trackedProps n && decide (n.prop = name)) n rest hpred]
          exact ih acc name h

/-- **C7.** During one file's local collection pass a binding, once
present (whether seeded by the external pass or created by an earlier
local definition), is never overwritten — a later definition of the
same name is skipped — and a name not yet bound ends up bound to the
data of the first eligible defining node, so each name is bound at most
once and first occurrence wins. -/
theorem C7_first_definition_wins :
    ∀ (trackedProps : List Str) (nodes : List CSSNode) (m : VarMap),
      (∀ (name : Str) (d : VarData), lookupVar m name = some d →
        lookupVar (collectDeclarations trackedProps nodes m).2 name =
          some d) ∧
      (∀ name : Str, lookupVar m name = none →
        lookupVar (collectDeclarations trackedProps nodes m).2 name =
          (nodes.find? (fun n => eligibleVarDef trackedProps n &&
            decide (n.prop = name))).map
            (fun n => getVarData n false none)) := by
  intro trackedProps nodes m
  constructor
  · intro name d h
    exact collect_preserves trackedProps nodes ([], m) name d h
  · intro name h
    exact collect_first_wins trackedProps nodes ([], m) name h

/-- A concrete in-scope custom-property definition node. -/
def mkVarDefNode (name value : String) : CSSNode :=
  { prop := name.toList, value := value.toList,
    parent := some { ptype := "rule".toList, selector := ":root".toList },
    start := ⟨1, 1⟩, stop := ⟨1, 2⟩ }

/-- Witness for `C7_first_definition_wins`: a pre-seeded binding for
`--a` survives a later local definition of `--a` unchanged, and an
unseeded name `--b` receives the data of its first defining node. -/
theorem C7_first_definition_wins_witness :
    lookupVar (collectDeclarations ["color".toList]
        [mkVarDefNode "--a" "blue", mkVarDefNode "--b" "red",
         mkVarDefNode "--b" "green"]
        [mkBinding "--a" "1px"]).2 "--a".toList =
      some (mkBinding "--a" "1px").2 ∧
    lookupVar (collectDeclarations ["color".toList]
        [mkVarDefNode "--a" "blue", mkVarDefNode "--b" "red",
         mkVarDefNode "--b" "green"]
        [mkBinding "--a" "1px"]).2 "--b".toList =
      some (getVarData (mkVarDefNode "--b" "red") false none) := by
  constructor
  · exact (C7_first_definition_wins ["color".toList]
      [mkVarDefNode "--a" "blue", mkVarDefNode "--b" "red",
       mkVarDefNode "--b" "green"] [mkBinding "--a" "1px"]).1
      "--a".toList (mkBinding "--a" "1px").2 (by decide)
  · have h := (C7_first_definition_wins ["color".toList]
      [mkVarDefNode "--a" "blue", mkVarDefNode "--b" "red",
       mkVarDefNode "--b" "green"] [mkBinding "--a" "1px"]).2
      "--b".toList (by decide)
    rw [h]
    decide

/-! ### Claim C9: idempotency of UnresolvedVarTracker.addFromDeclaration -/

theorem trackerLookup_updateFirst_self (m : List (Str × List Str))
    (key : Str) (files fs : List Str) (h : trackerLookup m key = some fs) :
    trackerLookup (updateFirst m key files) key = some files := by
  induction m with
  | nil => cases h
  | cons e rest ih =>
    rcases e with ⟨k, fse⟩
    rw [trackerLookup] at h
    by_cases he : k = key
    · rw [updateFirst, if_pos he, trackerLookup, if_pos he]
    · rw [if_neg he] at h
      rw [updateFirst, if_neg he, trackerLookup, if_neg he]
      exact ih h

theorem trackerLookup_updateFirst_ne (m : List (Str × List Str))
    (key v : Str) (files : List Str) (hne : v ≠ key) :
    trackerLookup (updateFirst m key files) v = trackerLookup m v := by
  induction m with
  | nil => rfl
  | cons e rest ih =>
    rcases e with ⟨k, fse⟩
    by_cases he : k = key
    · rw [updateFirst, if_pos he, trackerLookup, trackerLookup,
        if_neg (by rw [he]; exact fun hc => hne hc.symm),
        if_neg (by rw [he]; exact fun hc => hne hc.symm)]
    · rw [updateFirst, if_neg he, trackerLookup, trackerLookup]
      by_cases hv : k = v
      · rw [if_pos hv, if_pos hv]
      · rw [if_neg hv, if_neg hv]
        exact ih

theorem trackerLookup_append_of_some (m l : List (Str × List Str))
    (v : Str) (fs : List Str) (h : trackerLookup m v = some fs) :
    trackerLookup (m ++ l) v = some fs := by
  induction m with
  | nil => cases h
  | cons e rest ih =>
    rcases e with ⟨k, fse⟩
    rw [trackerLookup] at h
    by_cases he : k = v
    · rw [if_pos he] at h
      rw [List.cons_append, trackerLookup, if_pos he]
      exact h
    · rw [if_neg he] at h
      rw [List.cons_append, trackerLookup, if_neg he]
      exact ih h

theorem trackerLookup_append_single (m : List (Str × List Str))
    (v : Str) (fs : List Str) (h : trackerLookup m v = none) :
    trackerLookup (m ++ [(v, fs)]) v = some fs := by
  induction m with
  | nil => simp [trackerLookup]
  | cons e rest ih =>
    rcases e with ⟨k, fse⟩
    rw [trackerLookup] at h
    by_cases he : k = v
    · rw [if_pos he] at h
      cases h
    · rw [if_neg he] at h
      rw [List.cons_append, trackerLookup, if_neg he]
      exact ih h

/-- The per-name observation established by a tracker step. -/
def trackerHasFile (m : List (Str × List Str)) (v filePath : Str) : Prop :=
  ∃ fs, trackerLookup m v = some fs ∧ filePath ∈ fs

theorem trackerStep_preserves (tokenKeys : List Str) (filePath : Str)
    (m : List (Str × List Str)) (w v : Str)
    (h : trackerHasFile m v filePath) :
    trackerHasFile (trackerStep tokenKeys filePath m w) v filePath := by
  obtain ⟨fs, hl, hmem⟩ := h
  by_cases htok : isDesignTokenName tokenKeys w = true
  · have hstep : trackerStep tokenKeys filePath m w = m := by
      rw [trackerStep, if_pos htok]
    rw [hstep]
    exact ⟨fs, hl, hmem⟩
  · rcases hw : trackerLookup m w with _ | files
    · have hstep : trackerStep tokenKeys filePath m w =
          m ++ [(w, [filePath])] := by
        rw [trackerStep, if_neg htok, hw]
      rw [hstep]
      exact ⟨fs, trackerLookup_append_of_some m _ v fs hl, hmem⟩
    · by_cases hfp : filePath ∈ files
      · have hstep : trackerStep tokenKeys filePath m w = m := by
          rw [trackerStep, if_neg htok, hw]
          show (if filePath ∈ files then m
            else updateFirst m w (files ++ [filePath])) = m
          rw [if_pos hfp]
        rw [hstep]
        exact ⟨fs, hl, hmem⟩
      · have hstep : trackerStep tokenKeys filePath m w =
            updateFirst m w (files ++ [filePath]) := by
          rw [trackerStep, if_neg htok, hw]
          show (if filePath ∈ files then m
            else updateFirst m w (files ++ [filePath])) =
            updateFirst m w (files ++ [filePath])
          rw [if_neg hfp]
        rw [hstep]
        by_cases hvw : v = w
        · subst hvw
          have hfe : fs = files := by
            rw [hl] at hw
            exact Option.some.inj hw
          subst hfe
          exact ⟨fs ++ [filePath],
            trackerLookup_updateFirst_self m v _ fs hl, by simp [hmem]⟩
        · exact ⟨fs, by
            rw [trackerLookup_updateFirst_ne m w v _ hvw]
            exact hl, hmem⟩

theorem trackerStep_establishes (tokenKeys : List Str) (filePath : Str)
    (m : List (Str × List Str)) (v : Str)
    (htok : ¬isDesignTokenName tokenKeys v = true) :
    trackerHasFile (trackerStep tokenKeys filePath m v) v filePath := by
  rcases hv : trackerLookup m v with _ | files
  · have hstep : trackerStep tokenKeys filePath m v =
        m ++ [(v, [filePath])] := by
      rw [trackerStep, if_neg htok, hv]
    rw [hstep]
    exact ⟨[filePath], trackerLookup_append_single m v _ hv, by simp⟩
  · by_cases hfp : filePath ∈ files
    · have hstep : trackerStep tokenKeys filePath m v = m := by
        rw [trackerStep, if_neg htok, hv]
        show (if filePath ∈ files then m
          else updateFirst m v (files ++ [filePath])) = m
        rw [if_pos hfp]
      rw [hstep]
      exact ⟨files, hv, hfp⟩
    · have hstep : trackerStep tokenKeys filePath m v =
          updateFirst m v (files ++ [filePath]) := by
        rw [trackerStep, if_neg htok, hv]
        show (if filePath ∈ files then m
          else updateFirst m v (files ++ [filePath])) =
          updateFirst m v (files ++ [filePath])
        rw [if_neg hfp]
      rw [hstep]
      exact ⟨files ++ [filePath],
        trackerLookup_updateFirst_self m v _ files hv, by simp⟩

theorem trackerFold_preserves (tokenKeys : List Str) (filePath : Str) :
    ∀ (names : List Str) (m : List (Str × List Str)) (v : Str),
      trackerHasFile m v filePath →
      trackerHasFile (names.foldl (trackerStep tokenKeys filePath) m) v
        filePath := by
  intro names
  induction names with
  | nil => intro m v h; exact h
  | cons w rest ih =>
    intro m v h
    rw [List.foldl_cons]
    exact ih _ v (trackerStep_preserves tokenKeys filePath m w v h)

theorem trackerFold_establishes (tokenKeys : List Str) (filePath : Str) :
    ∀ (names : List Str) (m : List (Str × List Str)) (v : Str),
      v ∈ names → ¬isDesignTokenName tokenKeys v = true →
      trackerHasFile (names.foldl (trackerStep tokenKeys filePath) m) v
        filePath := by
  intro names
  induction names with
  | nil => intro m v hv; cases hv
  | cons w rest ih =>
    intro m v hv htok
    rw [List.foldl_cons]
    rcases List.mem_cons.mp hv with h | h
    · subst h
      exact trackerFold_preserves tokenKeys filePath rest _ v
        (trackerStep_establishes tokenKeys filePath m v htok)
    · exact ih _ v h htok

theorem trackerStep_noop (tokenKeys : List Str) (filePath : Str)
    (m : List (Str × List Str)) (v : Str)
    (h : isDesignTokenName tokenKeys v = true ∨ trackerHasFile m v filePath) :
    trackerStep tokenKeys filePath m v = m := by
  rcases h with h | ⟨fs, hl, hmem⟩
  · rw [trackerStep, if_pos h]
  · by_cases htok : isDesignTokenName tokenKeys v = true
    · rw [trackerStep, if_pos htok]
    · rw [trackerStep, if_neg htok, hl]
      show (if filePath ∈ fs then m
        else updateFirst m v (fs ++ [filePath])) = m
      rw [if_pos hmem]

theorem trackerFold_noop (tokenKeys : List Str) (filePath : Str) :
    ∀ (names : List Str) (m : List (Str × List Str)),
      (∀ v ∈ names, isDesignTokenName tokenKeys v = true ∨
        trackerHasFile m v filePath) →
      names.foldl (trackerStep tokenKeys filePath) m = m := by
  intro names
  induction names with
  | nil => intro m _; rfl
  | cons w rest ih =>
    intro m hall
    rw [List.foldl_cons, trackerStep_noop tokenKeys filePath m w
      (hall w (List.mem_cons_self w rest))]
    exact ih m (fun v hv => hall v (List.mem_cons_of_mem w hv))

/-- **C9.** `UnresolvedVarTracker.addFromDeclaration` is idempotent:
adding the same declaration and file path twice leaves the tracker in
the same state as adding it once — each variable's file collection is a
set, so repeated insertion of the same path changes neither the
per-variable file lists nor the counts reported by `toReport`. -/
theorem C9_addFromDeclaration_idempotent :
    ∀ (tokenKeys : List Str) (t : UnresolvedVarTracker)
      (decl : ResolvedDecl) (filePath : Str) (rel : Str → Str),
      ((t.addFromDeclaration tokenKeys decl filePath).addFromDeclaration
        tokenKeys decl filePath) =
        t.addFromDeclaration tokenKeys decl filePath ∧
      ((t.addFromDeclaration tokenKeys decl filePath).addFromDeclaration
        tokenKeys decl filePath).toReport rel =
        (t.addFromDeclaration tokenKeys decl filePath).toReport rel := by
  intro tokenKeys t decl filePath rel
  have hstate : ((t.addFromDeclaration tokenKeys decl filePath).addFromDeclaration
      tokenKeys decl filePath) = t.addFromDeclaration tokenKeys decl filePath := by
    rw [UnresolvedVarTracker.addFromDeclaration,
      UnresolvedVarTracker.addFromDeclaration]
    by_cases hempty : decl.unresolvedVariables.isEmpty = true
    · rw [if_pos hempty, if_pos hempty]
    · rw [if_neg hempty, if_neg hempty]
      congr 1
      exact trackerFold_noop tokenKeys filePath decl.unresolvedVariables _
        (fun v hv => by
          by_cases htok : isDesignTokenName tokenKeys v = true
          · exact Or.inl htok
          · exact Or.inr (trackerFold_establishes tokenKeys filePath
              decl.unresolvedVariables t.vars v hv htok))
  exact ⟨hstate, by rw [hstate]⟩

/-! ### Claims C2 and C3: the resolution loop -/

/-- Unfolding equation of the loop at a positive fuel value. -/
theorem resolveSteps_succ (b : VarMap) (fuel : Nat) (visited : List Str)
    (current : Str) :
    resolveSteps b (fuel + 1) visited current =
      if (getCSSVariables current).isEmpty then []
      else if (substStep b (getCSSVariables current) current visited).2.2 =
            false ∨
          (substStep b (getCSSVariables current) current visited).1 =
            current then []
      else (substStep b (getCSSVariables current) current visited).1 ::
        resolveSteps b fuel
          (substStep b (getCSSVariables current) current visited).2.1
          (substStep b (getCSSVariables current) current visited).1 := rfl

theorem substVar_of_mem (b : VarMap) (acc : Str × List Str × Bool) (v : Str)
    (hv : v ∈ acc.2.1) : substVar b acc v = acc := by
  rw [substVar, if_pos hv]

theorem substVar_of_none (b : VarMap) (acc : Str × List Str × Bool) (v : Str)
    (hv : v ∉ acc.2.1) (hlk : lookupVar b v = none) :
    substVar b acc v = (acc.1, acc.2.1 ++ [v], acc.2.2) := by
  rw [substVar, if_neg hv, hlk]

theorem substVar_of_hit (b : VarMap) (acc : Str × List Str × Bool) (v : Str)
    (data : VarData) (hv : v ∉ acc.2.1) (hlk : lookupVar b v = some data)
    (hcond : containsSub acc.1 (varCall v) = true ∧ data.value ≠ []) :
    substVar b acc v =
      (jsReplace acc.1 (varCall v) data.value, acc.2.1 ++ [v], true) := by
  rw [substVar, if_neg hv, hlk]
  show (if containsSub acc.1 (varCall v) = true ∧ data.value ≠ [] then
      (jsReplace acc.1 (varCall v) data.value, acc.2.1 ++ [v], true)
    else (acc.1, acc.2.1 ++ [v], acc.2.2)) =
    (jsReplace acc.1 (varCall v) data.value, acc.2.1 ++ [v], true)
  rw [if_pos hcond]

theorem substVar_of_skip (b : VarMap) (acc : Str × List Str × Bool) (v : Str)
    (data : VarData) (hv : v ∉ acc.2.1) (hlk : lookupVar b v = some data)
    (hcond : ¬(containsSub acc.1 (varCall v) = true ∧ data.value ≠ [])) :
    substVar b acc v = (acc.1, acc.2.1 ++ [v], acc.2.2) := by
  rw [substVar, if_neg hv, hlk]
  show (if containsSub acc.1 (varCall v) = true ∧ data.value ≠ [] then
      (jsReplace acc.1 (varCall v) data.value, acc.2.1 ++ [v], true)
    else (acc.1, acc.2.1 ++ [v], acc.2.2)) =
    (acc.1, acc.2.1 ++ [v], acc.2.2)
  rw [if_neg hcond]

theorem substVar_visited_cases (b : VarMap) (acc : Str × List Str × Bool)
    (v : Str) :
    (substVar b acc v).2.1 = acc.2.1 ∧ v ∈ acc.2.1 ∨
      (substVar b acc v).2.1 = acc.2.1 ++ [v] := by
  by_cases hv : v ∈ acc.2.1
  · rw [substVar_of_mem b acc v hv]
    exact Or.inl ⟨rfl, hv⟩
  · rcases hlk : lookupVar b v with _ | data
    · rw [substVar_of_none b acc v hv hlk]
      exact Or.inr rfl
    · by_cases hcond : containsSub acc.1 (varCall v) = true ∧ data.value ≠ []
      · rw [substVar_of_hit b acc v data hv hlk hcond]
        exact Or.inr rfl
      · rw [substVar_of_skip b acc v data hv hlk hcond]
        exact Or.inr rfl

theorem substVar_changed (b : VarMap) (acc : Str × List Str × Bool) (v : Str)
    (h : (substVar b acc v).2.2 = true) :
    acc.2.2 = true ∨ (v ∉ acc.2.1 ∧ v ∈ (substVar b acc v).2.1 ∧
      (lookupVar b v).isSome = true) := by
  by_cases hv : v ∈ acc.2.1
  · rw [substVar_of_mem b acc v hv] at h
    exact Or.inl h
  · rcases hlk : lookupVar b v with _ | data
    · rw [substVar_of_none b acc v hv hlk] at h
      exact Or.inl h
    · by_cases hcond : containsSub acc.1 (varCall v) = true ∧ data.value ≠ []
      · refine Or.inr ⟨hv, ?_, by simp [hlk]⟩
        rw [substVar_of_hit b acc v data hv hlk hcond]
        simp
      · rw [substVar_of_skip b acc v data hv hlk hcond] at h
        exact Or.inl h

theorem substVar_visited_mono (b : VarMap) (acc : Str × List Str × Bool)
    (v x : Str) (h : x ∈ acc.2.1) : x ∈ (substVar b acc v).2.1 := by
  rcases substVar_visited_cases b acc v with ⟨heq, _⟩ | heq
  · rw [heq]
    exact h
  · rw [heq]
    exact List.mem_append_left _ h

theorem substFold_visited_mono (b : VarMap) :
    ∀ (vars : List Str) (acc : Str × List Str × Bool) (x : Str),
      x ∈ acc.2.1 → x ∈ (vars.foldl (substVar b) acc).2.1 := by
  intro vars
  induction vars with
  | nil => intro acc x h; exact h
  | cons v rest ih =>
    intro acc x h
    rw [List.foldl_cons]
    refine ih _ x ?_
    rcases substVar_visited_cases b acc v with ⟨heq, _⟩ | heq
    · rw [heq]
      exact h
    · rw [heq]
      exact List.mem_append_left _ h

theorem substFold_visited_subset (b : VarMap) :
    ∀ (vars : List Str) (acc : Str × List Str × Bool) (x : Str),
      x ∈ (vars.foldl (substVar b) acc).2.1 → x ∈ acc.2.1 ∨ x ∈ vars := by
  intro vars
  induction vars with
  | nil => intro acc x h; exact Or.inl h
  | cons v rest ih =>
    intro acc x h
    rw [List.foldl_cons] at h
    rcases ih _ x h with h1 | h1
    · rcases substVar_visited_cases b acc v with ⟨heq, _⟩ | heq
      · rw [heq] at h1
        exact Or.inl h1
      · rw [heq] at h1
        rcases List.mem_append.mp h1 with h2 | h2
        · exact Or.inl h2
        · rw [List.mem_singleton] at h2
          subst h2
          exact Or.inr (List.mem_cons_self _ _)
    · exact Or.inr (List.mem_cons_of_mem _ h1)

theorem substFold_changed (b : VarMap) :
    ∀ (vars : List Str) (acc : Str × List Str × Bool),
      (vars.foldl (substVar b) acc).2.2 = true →
      acc.2.2 = true ∨ ∃ v ∈ vars, v ∉ acc.2.1 ∧
        v ∈ (vars.foldl (substVar b) acc).2.1 ∧
        (lookupVar b v).isSome = true := by
  intro vars
  induction vars with
  | nil => intro acc h; exact Or.inl h
  | cons v rest ih =>
    intro acc h
    rw [List.foldl_cons] at h ⊢
    rcases ih _ h with h1 | ⟨u, hu, hnotin, hin, hsome⟩
    · rcases substVar_changed b acc v h1 with h2 | ⟨hv, hvin, hsome⟩
      · exact Or.inl h2
      · exact Or.inr ⟨v, List.mem_cons_self _ _, hv,
          substFold_visited_mono b rest _ v hvin, hsome⟩
    · refine Or.inr ⟨u, List.mem_cons_of_mem _ hu, ?_, hin, hsome⟩
      intro hc
      exact hnotin (substVar_visited_mono b acc v u hc)

theorem lookupVar_isSome_mem (b : VarMap) (v : Str)
    (h : (lookupVar b v).isSome = true) : v ∈ b.map Prod.fst := by
  induction b with
  | nil => cases h
  | cons e rest ih =>
    rcases e with ⟨k, d⟩
    rw [lookupVar] at h
    by_cases hk : k = v
    · rw [List.map_cons, List.mem_cons]
      exact Or.inl hk.symm
    · rw [if_neg hk] at h
      exact List.mem_cons_of_mem _ (ih h)

/-- Every continuing loop iteration pushes one value and visits at
least one previously unvisited name appearing in the trace, so the
number of pushed values is bounded by the number of distinct reference
names of the trace not already visited. -/
theorem resolveSteps_length_bound (b : VarMap) :
    ∀ (fuel : Nat) (visited : List Str) (current : Str),
      (resolveSteps b fuel visited current).length ≤
        (((current :: resolveSteps b fuel visited current).flatMap
          getCSSVariables).toFinset \ visited.toFinset).card := by
  intro fuel
  induction fuel with
  | zero =>
    intro visited current
    simp [resolveSteps]
  | succ fuel ih =>
    intro visited current
    rw [resolveSteps_succ]
    by_cases hvars : (getCSSVariables current).isEmpty = true
    · rw [if_pos hvars]
      simp
    · rw [if_neg hvars]
      by_cases hstop :
          (substStep b (getCSSVariables current) current visited).2.2 =
            false ∨
          (substStep b (getCSSVariables current) current visited).1 =
            current
      · rw [if_pos hstop]
        simp
      · rw [if_neg hstop]
        push_neg at hstop
        have hch : (substStep b (getCSSVariables current) current
            visited).2.2 = true := by
          rcases hb : (substStep b (getCSSVariables current) current
              visited).2.2 with _ | _
          · exact absurd hb hstop.1
          · rfl
        have hex : ∃ v ∈ getCSSVariables current, v ∉ visited ∧
            v ∈ (substStep b (getCSSVariables current) current
              visited).2.1 ∧
            (lookupVar b v).isSome = true := by
          rcases substFold_changed b (getCSSVariables current)
            (current, visited, false) hch with h | h
          · simp at h
          · exact h
        obtain ⟨v, hvmem, hvnot, hvin, hsome⟩ := hex
        have hmono : ∀ x ∈ visited,
            x ∈ (substStep b (getCSSVariables current) current
              visited).2.1 := fun x hx =>
          substFold_visited_mono b (getCSSVariables current)
            (current, visited, false) x hx
        set st := substStep b (getCSSVariables current) current visited
          with hst
        have ihr := ih st.2.1 st.1
        set rest := resolveSteps b fuel st.2.1 st.1 with hrest
        have hvnotin : v ∉
            (((st.1 :: rest).flatMap getCSSVariables).toFinset \
              st.2.1.toFinset) := by
          intro hc
          exact (Finset.mem_sdiff.mp hc).2 (List.mem_toFinset.mpr hvin)
        have hsub : insert v
            (((st.1 :: rest).flatMap getCSSVariables).toFinset \
              st.2.1.toFinset) ⊆
            (((current :: st.1 :: rest).flatMap getCSSVariables).toFinset \
              visited.toFinset) := by
          intro x hx
          rcases Finset.mem_insert.mp hx with hx | hx
          · subst hx
            rw [Finset.mem_sdiff]
            constructor
            · rw [List.mem_toFinset]
              rw [List.flatMap_cons]
              exact List.mem_append_left _ hvmem
            · rw [List.mem_toFinset]
              exact hvnot
          · rw [Finset.mem_sdiff] at hx ⊢
            constructor
            · rw [List.mem_toFinset] at hx ⊢
              rw [List.flatMap_cons]
              exact List.mem_append_right _ hx.1
            · rw [List.mem_toFinset] at hx ⊢
              intro hc
              exact hx.2 (List.mem_toFinset.mpr (hmono x hc))
        calc (st.1 :: rest).length = rest.length + 1 := by
              rw [List.length_cons]
          _ ≤ (((st.1 :: rest).flatMap getCSSVariables).toFinset \
                st.2.1.toFinset).card + 1 := by omega
          _ = (insert v (((st.1 :: rest).flatMap getCSSVariables).toFinset \
                st.2.1.toFinset)).card :=
              (Finset.card_insert_of_not_mem hvnotin).symm
          _ ≤ (((current :: st.1 :: rest).flatMap
                getCSSVariables).toFinset \ visited.toFinset).card :=
              Finset.card_le_card hsub

/-- The loop result does not depend on the fuel once it exceeds the
number of bound names not yet visited: the `while` loop terminates. -/
theorem resolveSteps_fuel_congr (b : VarMap) :
    ∀ (f g : Nat) (visited : List Str) (current : Str),
      ((b.map Prod.fst).toFinset \ visited.toFinset).card < f →
      ((b.map Prod.fst).toFinset \ visited.toFinset).card < g →
      resolveSteps b f visited current = resolveSteps b g visited current := by
  intro f
  induction f with
  | zero =>
    intro g visited current h1 _
    omega
  | succ f ih =>
    intro g visited current h1 h2
    rcases g with _ | g
    · omega
    · rw [resolveSteps_succ, resolveSteps_succ]
      by_cases hvars : (getCSSVariables current).isEmpty = true
      · rw [if_pos hvars, if_pos hvars]
      · rw [if_neg hvars, if_neg hvars]
        by_cases hstop :
            (substStep b (getCSSVariables current) current visited).2.2 =
              false ∨
            (substStep b (getCSSVariables current) current visited).1 =
              current
        · rw [if_pos hstop, if_pos hstop]
        · rw [if_neg hstop, if_neg hstop]
          push_neg at hstop
          have hch : (substStep b (getCSSVariables current) current
              visited).2.2 = true := by
            rcases hb : (substStep b (getCSSVariables current) current
                visited).2.2 with _ | _
            · exact absurd hb hstop.1
            · rfl
          have hex : ∃ v ∈ getCSSVariables current, v ∉ visited ∧
              v ∈ (substStep b (getCSSVariables current) current
                visited).2.1 ∧
              (lookupVar b v).isSome = true := by
            rcases substFold_changed b (getCSSVariables current)
              (current, visited, false) hch with h | h
            · simp at h
            · exact h
          obtain ⟨v, hvmem, hvnot, hvin, hsome⟩ := hex
          have hmono : ∀ x ∈ visited,
              x ∈ (substStep b (getCSSVariables current) current
                visited).2.1 := fun x hx =>
            substFold_visited_mono b (getCSSVariables current)
              (current, visited, false) x hx
          set st := substStep b (getCSSVariables current) current visited
            with hst
          have hlt : ((b.map Prod.fst).toFinset \ st.2.1.toFinset).card <
              ((b.map Prod.fst).toFinset \ visited.toFinset).card := by
            refine Finset.card_lt_card ?_
            rw [Finset.ssubset_iff_of_subset]
            · exact ⟨v, by
                rw [Finset.mem_sdiff]
                exact ⟨List.mem_toFinset.mpr (lookupVar_isSome_mem b v hsome),
                  fun hc => hvnot (List.mem_toFinset.mp hc)⟩,
                by
                  rw [Finset.mem_sdiff]
                  intro hc
                  exact hc.2 (List.mem_toFinset.mpr hvin)⟩
            · intro x hx
              rw [Finset.mem_sdiff] at hx ⊢
              refine ⟨hx.1, ?_⟩
              intro hc
              exact hx.2 (List.mem_toFinset.mpr
                (hmono x (List.mem_toFinset.mp hc)))
          rw [ih g st.2.1 st.1 (by omega) (by omega)]

/-- **C2.** `buildResolutionTrace` terminates for every initial value
and binding map: any fuel of at least `bindings.length + 1` iterations
yields the same trace, and the trace's length is at most 1 plus the
number of distinct reference names occurring across the trace; in
particular the self-referential binding `--a -> var(--a)` yields the
one-element trace `['var(--a)']`. -/
theorem C2_trace_terminates_with_bound :
    (∀ (initialValue : Str) (bindings : VarMap) (fuel : Nat),
      bindings.length + 1 ≤ fuel →
      initialValue :: resolveSteps bindings fuel [] initialValue =
        buildResolutionTrace initialValue bindings) ∧
    (∀ (initialValue : Str) (bindings : VarMap),
      (buildResolutionTrace initialValue bindings).length ≤
        1 + ((buildResolutionTrace initialValue bindings).flatMap
          getCSSVariables).toFinset.card) ∧
    buildResolutionTrace "var(--a)".toList [mkBinding "--a" "var(--a)"] =
      ["var(--a)".toList] := by
  have hmu : ∀ (bindings : VarMap),
      ((bindings.map Prod.fst).toFinset \ ([] : List Str).toFinset).card ≤
        bindings.length := by
    intro bindings
    calc ((bindings.map Prod.fst).toFinset \
          ([] : List Str).toFinset).card
        ≤ (bindings.map Prod.fst).toFinset.card :=
          Finset.card_le_card (Finset.sdiff_subset)
      _ ≤ (bindings.map Prod.fst).length := List.toFinset_card_le _
      _ = bindings.length := List.length_map _ _
  refine ⟨?_, ?_, by decide⟩
  · intro initialValue bindings fuel hfuel
    rw [buildResolutionTrace]
    have h := resolveSteps_fuel_congr bindings fuel (bindings.length + 1)
      [] initialValue (by have := hmu bindings; omega)
      (by have := hmu bindings; omega)
    rw [h]
  · intro initialValue bindings
    have h := resolveSteps_length_bound bindings (bindings.length + 1)
      [] initialValue
    rw [buildResolutionTrace]
    have hsd : ((initialValue :: resolveSteps bindings
        (bindings.length + 1) [] initialValue).flatMap
          getCSSVariables).toFinset \ ([] : List Str).toFinset =
        ((initialValue :: resolveSteps bindings
          (bindings.length + 1) [] initialValue).flatMap
            getCSSVariables).toFinset := by
      simp
    rw [hsd] at h
    rw [List.length_cons]
    omega

/-- Witness for `C2_trace_terminates_with_bound`: extra fuel does not
change the trace of `var(--x)` over an empty binding map. -/
theorem C2_trace_terminates_with_bound_witness :
    "var(--x)".toList :: resolveSteps [] 5 [] "var(--x)".toList =
      buildResolutionTrace "var(--x)".toList [] :=
  C2_trace_terminates_with_bound.1 "var(--x)".toList [] 5 (by decide)

/-- **C3 counterexample.** With bindings `--a -> 'var(--b) var(--a)'`
and `--b -> 'x'`, the trace of `'var(--a)'` ends at `'x var(--a)'`,
but re-resolving that last element substitutes further (the second
occurrence of `--a` was only skipped because `--a` had already been
visited) and ends at the different value `'x x var(--a)'`: the last
trace element is not a fixed point of re-resolution. -/
theorem C3_counterexample :
    (buildResolutionTrace "var(--a)".toList
      [mkBinding "--a" "var(--b) var(--a)", mkBinding "--b" "x"]).getLastD
        [] = "x var(--a)".toList ∧
    (buildResolutionTrace "x var(--a)".toList
      [mkBinding "--a" "var(--b) var(--a)", mkBinding "--b" "x"]).getLastD
        [] = "x x var(--a)".toList ∧
    "x x var(--a)".toList ≠ "x var(--a)".toList := by
  refine ⟨by decide, by decide, by decide⟩

/-- **C3 amended.** The last element of a resolution trace is a fixed
point of re-resolution whenever it contains no custom-property
reference: re-resolving it returns the one-element trace consisting of
that element. (In general the claim fails: a trace may end in a value
that still references a bound name first visited at an earlier step,
and re-resolving that value substitutes further, as in the
counterexample.) -/
theorem C3_amended_varfree_fixed_point :
    ∀ (initialValue : Str) (bindings : VarMap),
      getCSSVariables ((buildResolutionTrace initialValue
        bindings).getLastD []) = [] →
      buildResolutionTrace ((buildResolutionTrace initialValue
        bindings).getLastD []) bindings =
        [(buildResolutionTrace initialValue bindings).getLastD []] := by
  intro initialValue bindings h
  rw [buildResolutionTrace, resolveSteps_succ, if_pos]
  rw [h]
  rfl

/-- Witness for `C3_amended_varfree_fixed_point`, at the fully resolved
trace of `var(--a)` with `--a -> 12px`. -/
theorem C3_amended_varfree_fixed_point_witness :
    buildResolutionTrace
      ((buildResolutionTrace "var(--a)".toList
        [mkBinding "--a" "12px"]).getLastD [])
      [mkBinding "--a" "12px"] =
      [(buildResolutionTrace "var(--a)".toList
        [mkBinding "--a" "12px"]).getLastD []] :=
  C3_amended_varfree_fixed_point "var(--a)".toList
    [mkBinding "--a" "12px"] (by decide)

end Awdty
